import Mathlib

/-!
Verification development for the marketplace-aggregation script
`sync-marketplaces.py` (class `MarketplaceAggregator`).

The script is translated here as a shallow embedding:
* JSON-ish values carried by plugin records are `JVal` (strings and arrays
  are the only shapes any property needs; plugin records are insertion-ordered
  association lists, modelling Python `dict`s over string keys).
* The external repository fetcher (`_clone_repo` plus the on-disk content of
  the fetched tree) is a `World` function: for a given url and branch it
  either fails (the clone raises), yields a tree without
  `.claude-plugin/marketplace.json`, or yields the parsed `plugins` list of
  that file.  Version extraction from `SKILL.md` (`_extract_version_from_skill`)
  is likewise an oracle parameter: it is pure text scraping over fetched file
  content that no property below depends on.
* Raised exceptions are `Except.error`; `run`'s top-level `try` maps them to
  exit status 1.
* Logging and file copying are side effects outside the accumulator state and
  are not modelled.
-/

/-- JSON-ish field values appearing in plugin records. -/
inductive JVal where
  | str : String → JVal
  | arr : List JVal → JVal

/-- A plugin record: a Python `dict` with string keys, i.e. an
insertion-ordered association list with unique keys. -/
abbrev Plugin := List (String × JVal)

/-- Python dict lookup `d[k]`: first (and only) binding of `k`. -/
def dictGet (d : Plugin) (k : String) : Option JVal :=
  (d.find? (fun kv => kv.fst == k)).map (fun kv => kv.snd)

/-- Python dict assignment `d[k] = v`: overwrite in place if the key exists
(keeping its insertion position), else append a new binding. -/
def dictSet (d : Plugin) (k : String) (v : JVal) : Plugin :=
  if d.any (fun kv => kv.fst == k) then
    d.map (fun kv => if kv.fst == k then (k, v) else kv)
  else d ++ [(k, v)]

/-- The plugin's `name` value when present and a string (the descriptor
schema the program consumes always makes it a string). -/
def pluginNameStr (p : Plugin) : Option String :=
  match dictGet p "name" with
  | some (.str s) => some s
  | _ => none

/-- One entry of the configuration's `sources` list.  Optional keys are
`Option`s; `source.get(key, default)` is `Option.getD`.  `tagPref?` models
the entry's `tag_prefix` key. -/
structure SourceSpec where
  type? : Option String := none
  url : String := ""
  branch? : Option String := none
  denylist : List String := []
  tagPref? : Option String := none
  name? : Option String := none
  targetPath? : Option String := none
  description? : Option String := none
  category? : Option String := none

/-- The configuration's `marketplace` section (output catalog metadata). -/
structure MarketplaceMeta where
  name? : Option String := none
  version? : Option String := none
  description? : Option String := none
  owner? : Option (List (String × String)) := none

/-- The loaded configuration document.  `provField?` models
`sync_settings.provenance_field`; `exclude_patterns` only affects file
copying, which is outside the modelled state. -/
structure Config where
  sources : List SourceSpec := []
  marketplace : MarketplaceMeta := {}
  provField? : Option String := none

/-- Models `config.get("sync_settings", {}).get("provenance_field", "source_marketplace")`. -/
def Config.provenanceField (cfg : Config) : String :=
  cfg.provField?.getD "source_marketplace"

/-- Outcome of materializing a remote repository at a ref: the clone raises,
or the tree lacks `.claude-plugin/marketplace.json`, or that file parses to
a `plugins` list. -/
inductive FetchResult where
  | failure
  | noDescriptor
  | catalog (plugins : List Plugin)

/-- The external repository fetcher plus the content of what it fetches,
keyed by (url, branch). -/
abbrev World := String → String → FetchResult

/-- The aggregator's mutable run state: the processed-marketplaces set, the
accumulated plugin list, and the provenance map (name to ordered tag list). -/
structure AggState where
  processedMarketplaces : List String := []
  allPlugins : List Plugin := []
  provenanceMap : List (String × List String) := []

/-- Models `if name not in map: map[name] = []` followed by `map[name].append(tag)`. -/
def provAppend (m : List (String × List String)) (name tag : String) :
    List (String × List String) :=
  if m.any (fun kv => kv.fst == name) then
    m.map (fun kv => if kv.fst == name then (kv.fst, kv.snd ++ [tag]) else kv)
  else m ++ [(name, [tag])]

/-- Models `"/".join(chain)`. -/
def joinChain (chain : List String) : String :=
  String.intercalate "/" chain

/-- Models `str.startswith` on character lists. -/
def listStartsWith : List Char → List Char → Bool
  | _, [] => true
  | [], _ :: _ => false
  | c :: cs, p :: ps => c == p && listStartsWith cs ps

/-- The characters after the first occurrence of `"://"`, if any.  Together
with the `dropWhile` below this models `urllib.parse.urlparse(url).path` for
URLs of the form `scheme://host/path` without query, fragment or params
(the only shapes the program feeds it). -/
def afterSchemeSep : List Char → Option (List Char)
  | ':' :: '/' :: '/' :: rest => some rest
  | _ :: rest => afterSchemeSep rest
  | [] => none

/-- Models `s.rstrip("/")` on character lists. -/
def rstripSlash (l : List Char) : List Char :=
  (l.reverse.dropWhile (fun c => c == '/')).reverse

/-- Models `s.split("/")[-1]` on character lists: the characters after the last
slash (the whole list when there is none). -/
def afterLastSlash (l : List Char) : List Char :=
  l.foldl (fun acc c => if c == '/' then [] else acc ++ [c]) []

/-- Models `s.split(":")[-1]` on character lists. -/
def lastColonPart (l : List Char) : List Char :=
  l.foldl (fun acc c => if c == ':' then [] else acc ++ [c]) []

/-- Models `s.replace(".git", "")`: remove the occurrences of `".git"` scanning
left to right, non-overlapping. -/
def replaceDotGit : List Char → List Char
  | '.' :: 'g' :: 'i' :: 't' :: rest => replaceDotGit rest
  | c :: rest => c :: replaceDotGit rest
  | [] => []

/-- Embeds `_extract_repo_name`: for http(s) URLs take the parsed URL path,
otherwise the part after the last colon; then `rstrip("/")`, take the last
slash-separated segment, and delete `".git"` occurrences. -/
def extractRepoName (url : String) : String :=
  let path : List Char :=
    if listStartsWith url.data "http".data then
      match afterSchemeSep url.data with
      | some rest => rest.dropWhile (fun c => c != '/')
      | none => url.data
    else lastColonPart url.data
  ⟨replaceDotGit (afterLastSlash (rstripSlash path))⟩

/-- The composite dedup key `f"{url}@{branch}"` for the
processed-marketplaces set. -/
def mkMarketplaceId (url branch : String) : String :=
  url ++ "@" ++ branch

/-- The per-plugin loop of `_process_marketplace`: look up the entry's
`name` (a missing name is a raised `KeyError`; the embedding also treats a
non-string name as malformed, a case no descriptor the program consumes
produces), skip denylisted names, otherwise copy the entry, set the
provenance field on the copy, record the tag in the provenance map and
append the copy to the plugin list. -/
def processPlugins (provField tag : String) (denylist : List String) :
    List Plugin → AggState → Except String AggState
  | [], st => .ok st
  | p :: rest, st =>
    match pluginNameStr p with
    | none => .error "KeyError: name"
    | some name =>
      if name ∈ denylist then
        processPlugins provField tag denylist rest st
      else
        let pc := dictSet p provField (.str tag)
        processPlugins provField tag denylist rest
          { st with
            provenanceMap := provAppend st.provenanceMap name tag,
            allPlugins := st.allPlugins ++ [pc] }

/-- Embeds `_process_marketplace`: compute defaults, skip an already-processed
(url, branch), otherwise remember it, clone (a clone failure propagates as
an error), return quietly when the fetched tree has no
`.claude-plugin/marketplace.json`, else run the per-plugin loop with the
extended parent chain. -/
def processMarketplace (cfg : Config) (world : World) (src : SourceSpec)
    (parentChain : List String) (st : AggState) : Except String AggState :=
  let url := src.url
  let branch := src.branch?.getD "main"
  let denylist := src.denylist
  let tagPref := src.tagPref?.getD (extractRepoName url)
  let marketplaceId := mkMarketplaceId url branch
  if marketplaceId ∈ st.processedMarketplaces then
    .ok st
  else
    let st := { st with
      processedMarketplaces := st.processedMarketplaces ++ [marketplaceId] }
    match world url branch with
    | .failure => .error ("Failed to clone " ++ url)
    | .noDescriptor => .ok st
    | .catalog plugins =>
      let newParentChain := parentChain ++ [tagPref]
      processPlugins cfg.provenanceField (joinChain newParentChain) denylist
        plugins st

/-- The plugin entry synthesized by `_process_skill`, built exactly like the
Python dict literal (successive insertions, a colliding provenance-field
name overwriting the earlier binding). -/
def mkSkillEntry (cfg : Config) (version : String) (src : SourceSpec)
    (parentChain : List String) (name : String) : Plugin :=
  dictSet (dictSet (dictSet (dictSet (dictSet (dictSet []
    "name" (.str name))
    "description" (.str (src.description?.getD ("Skill: " ++ name))))
    "version" (.str version))
    "source" (.str ("./" ++ src.targetPath?.getD ("skills/" ++ name))))
    "category" (.str (src.category?.getD "skills")))
    cfg.provenanceField
    (.str (if parentChain.isEmpty then "direct" else joinChain parentChain))

/-- Embeds `_process_skill`: a missing `name` is a raised `KeyError`, a clone
failure propagates; otherwise the fetched tree is copied into the output
tree (a file-system effect outside the modelled state), a version is
obtained from the extraction collaborator, and exactly one synthesized
plugin entry is appended to the plugin list.  The provenance map is not
touched. -/
def processSkill (cfg : Config) (world : World)
    (versionOf : String → String → String) (src : SourceSpec)
    (parentChain : List String) (st : AggState) : Except String AggState :=
  match src.name? with
  | none => .error "KeyError: name"
  | some name =>
    let url := src.url
    let branch := src.branch?.getD "main"
    match world url branch with
    | .failure => .error ("Failed to clone " ++ url)
    | _ =>
      let version := versionOf url branch
      .ok { st with
        allPlugins := st.allPlugins ++ [mkSkillEntry cfg version src parentChain name] }

/-- Embeds `_process_source`: dispatch on `source.get("type", "skill")`; an unknown
type only logs an error and contributes nothing. -/
def processSource (cfg : Config) (world : World)
    (versionOf : String → String → String) (src : SourceSpec)
    (parentChain : List String) (st : AggState) : Except String AggState :=
  let sourceType := src.type?.getD "skill"
  if sourceType = "marketplace" then
    processMarketplace cfg world src parentChain st
  else if sourceType = "skill" then
    processSkill cfg world versionOf src parentChain st
  else
    .ok st

/-- The loop of `run`: process the configured sources in order, each with an
empty parent chain; the first raised exception aborts the loop. -/
def runSources (cfg : Config) (world : World)
    (versionOf : String → String → String) :
    List SourceSpec → AggState → Except String AggState
  | [], st => .ok st
  | s :: rest, st =>
    match processSource cfg world versionOf s [] st with
    | .error e => .error e
    | .ok st' => runSources cfg world versionOf rest st'

/-- The dedup pass of `_generate_marketplace`: walk the accumulated list in
order, keep a record when its name is not in the seen set yet, drop it
otherwise.  (On a record with a missing name the program would raise; the
loop of `_process_marketplace` and `_process_skill` only ever append named
records, so that case is unreachable for run-produced states.) -/
def dedupPlugins (seen : List String) : List Plugin → List Plugin
  | [] => []
  | p :: rest =>
    match pluginNameStr p with
    | some n =>
      if n ∈ seen then dedupPlugins seen rest
      else p :: dedupPlugins (seen ++ [n]) rest
    | none => dedupPlugins seen rest

/-- The output catalog document written by `_generate_marketplace`. -/
structure Catalog where
  name : String
  version : String
  description : String
  owner : List (String × String)
  plugins : List Plugin

/-- Embeds `_generate_marketplace`: deduplicate the accumulated plugin list
(first occurrence wins) and build the output document from the
configuration's `marketplace` section with its defaults.  The provenance
map is only printed in the run summary; it is not part of the output. -/
def generateMarketplace (cfg : Config) (st : AggState) : Catalog :=
  { name := cfg.marketplace.name?.getD "aggregated-marketplace"
    version := cfg.marketplace.version?.getD "1.0.0"
    description := cfg.marketplace.description?.getD "Aggregated Claude Code marketplace"
    owner := cfg.marketplace.owner?.getD
      [("name", "Marketplace Aggregator"), ("email", "noreply@example.com")]
    plugins := dedupPlugins [] st.allPlugins }

/-- Embeds `run`: process all sources from empty accumulators, then generate the
catalog and exit 0; any propagated exception is caught at the top, no
catalog is produced and the exit status is 1. -/
def runAggregator (cfg : Config) (world : World)
    (versionOf : String → String → String) : Nat × Option Catalog :=
  match runSources cfg world versionOf cfg.sources {} with
  | .error _ => (1, none)
  | .ok st => (0, some (generateMarketplace cfg st))

def pluginNames (ps : List Plugin) : List String :=
  ps.filterMap pluginNameStr

def c2ps : List Plugin :=
  [[("name", JVal.str "a"), ("version", JVal.str "1.0.0")],
   [("name", JVal.str "a"), ("version", JVal.str "2.0.0")],
   [("name", JVal.str "b")]]

def c6src : SourceSpec :=
  { type? := some "marketplace", url := "https://example.com/repo", branch? := some "main" }

def c6src' : SourceSpec :=
  { type? := some "marketplace", url := "https://example.com/repo",
    denylist := ["x"] }

def c6world : World := fun _ _ => .catalog [[("name", JVal.str "p")]]

def c6st : AggState :=
  { processedMarketplaces := ["https://example.com/repo@main"],
    allPlugins := [[("name", JVal.str "p"), ("source_marketplace", JVal.str "repo")]],
    provenanceMap := [("p", ["repo"])] }

def c5src : SourceSpec :=
  { type? := some "marketplace", url := "https://example.com/empty" }

/-- The per-entry predicate of the marketplace loop: an entry is kept when
its name is not denylisted (a nameless entry raises instead of being kept). -/
def keptByDenylist (denylist : List String) (p : Plugin) : Bool :=
  match pluginNameStr p with
  | some n => !(decide (n ∈ denylist))
  | none => false

/-- Record one provenance tag for each name in order. -/
def provAppendList (m : List (String × List String)) (names : List String)
    (tag : String) : List (String × List String) :=
  names.foldl (fun m n => provAppend m n tag) m

def c7src : SourceSpec :=
  { type? := some "marketplace", url := "https://example.com/market",
    denylist := ["b"] }

def c7plugins : List Plugin :=
  [[("name", JVal.str "a")], [("name", JVal.str "b")], [("name", JVal.str "c")]]

def c7world : World := fun _ _ => .catalog c7plugins

def c4bad : SourceSpec :=
  { type? := some "marketplace", url := "https://invalid.example/missing" }

def c4good : SourceSpec :=
  { type? := some "marketplace", url := "https://example.com/ok",
    tagPref? := some "ok" }

def c4cfg : Config := { sources := [c4bad, c4good] }

def c4world : World := fun url _ =>
  if url = "https://invalid.example/missing" then .failure
  else .catalog [[("name", JVal.str "p1")]]

def c9src : SourceSpec :=
  { url := "https://example.com/myskill", type? := some "skill",
    name? := some "myskill" }

def c10src : SourceSpec :=
  { url := "https://example.com/tool", name? := some "tool" }

def c1srcA : SourceSpec :=
  { type? := some "marketplace", url := "https://example.com/source-1",
    tagPref? := some "source-1" }

def c1srcB : SourceSpec :=
  { type? := some "marketplace", url := "https://example.com/source-2",
    tagPref? := some "source-2" }

def c1cfg : Config := { sources := [c1srcA, c1srcB] }

def c1world : World := fun url _ =>
  if url = "https://example.com/source-1" then
    .catalog [[("name", .str "plugin-a"), ("version", .str "1.0.0")]]
  else if url = "https://example.com/source-2" then
    .catalog [[("name", .str "plugin-a"), ("version", .str "2.0.0")]]
  else .failure

def c1state : AggState :=
  { processedMarketplaces :=
      ["https://example.com/source-1@main", "https://example.com/source-2@main"],
    allPlugins :=
      [[("name", .str "plugin-a"), ("version", .str "1.0.0"),
        ("source_marketplace", .str "source-1")],
       [("name", .str "plugin-a"), ("version", .str "2.0.0"),
        ("source_marketplace", .str "source-2")]],
    provenanceMap := [("plugin-a", ["source-1", "source-2"])] }

def c3src : SourceSpec :=
  { type? := some "marketplace",
    url := "https://github.com/owner/upstream-marketplace",
    branch? := some "main" }

def c3cfg : Config := { sources := [c3src] }

def c3world : World := fun _ _ =>
  .catalog [[("name", .str "test-plugin"), ("description", .str "A test plugin"),
             ("version", .str "1.0.0"), ("source", .str "./plugins/test-plugin"),
             ("category", .str "test")]]

def c3record : Plugin :=
  [("name", .str "test-plugin"), ("description", .str "A test plugin"),
   ("version", .str "1.0.0"), ("source", .str "./plugins/test-plugin"),
   ("category", .str "test"),
   ("source_marketplace", .str "upstream-marketplace")]

def c8src : SourceSpec :=
  { type? := some "marketplace", url := "https://github.com/owner/plugin.gittools" }

def c8world : World := fun _ _ => .catalog [[("name", JVal.str "p")]]

theorem dedupPlugins_sublist (seen : List String) (ps : List Plugin) :
    (dedupPlugins seen ps).Sublist ps := by
  induction ps generalizing seen with
  | nil => simp [dedupPlugins]
  | cons p rest ih =>
    rw [dedupPlugins]
    cases h : pluginNameStr p with
    | none => exact (ih seen).cons p
    | some n =>
      by_cases hn : n ∈ seen
      · simp only [if_pos hn]; exact (ih seen).cons p
      · simp only [if_neg hn]; exact (ih (seen ++ [n])).cons₂ p

theorem dedupPlugins_names (seen : List String) (ps : List Plugin) :
    (pluginNames (dedupPlugins seen ps)).Nodup ∧
      ∀ s ∈ pluginNames (dedupPlugins seen ps), s ∉ seen := by
  induction ps generalizing seen with
  | nil => simp [dedupPlugins, pluginNames]
  | cons p rest ih =>
    rw [dedupPlugins]
    cases h : pluginNameStr p with
    | none => exact ih seen
    | some n =>
      by_cases hn : n ∈ seen
      · simp only [if_pos hn]; exact ih seen
      · simp only [if_neg hn]
        obtain ⟨ihnd, ihni⟩ := ih (seen ++ [n])
        have hnames : pluginNames (p :: dedupPlugins (seen ++ [n]) rest) =
            n :: pluginNames (dedupPlugins (seen ++ [n]) rest) := by
          simp [pluginNames, h]
        rw [hnames]
        constructor
        · refine List.nodup_cons.mpr ⟨fun hmem => ?_, ihnd⟩
          exact ihni n hmem (by simp)
        · intro s hs
          rcases List.mem_cons.mp hs with rfl | hs'
          · exact hn
          · intro hseen
            exact ihni s hs' (by simp [hseen])

theorem dedupPlugins_find? (ps : List Plugin) (seen : List String) (s : String)
    (hs : s ∉ seen) :
    (dedupPlugins seen ps).find? (fun q => pluginNameStr q == some s) =
      ps.find? (fun q => pluginNameStr q == some s) := by
  induction ps generalizing seen with
  | nil => simp [dedupPlugins]
  | cons p rest ih =>
    rw [dedupPlugins, List.find?_cons]
    cases h : pluginNameStr p with
    | none =>
      dsimp only
      exact ih seen hs
    | some n =>
      dsimp only
      by_cases hpn : n = s
      · subst hpn
        rw [if_neg hs, List.find?_cons]
        have ht : (pluginNameStr p == some n) = true := by simp [h]
        have ht2 : (some n == some n) = true := by simp
        simp only [ht, ht2]
      · have hf2 : (some n == some s) = false := by simp [hpn]
        simp only [hf2]
        by_cases hn : n ∈ seen
        · rw [if_pos hn]
          exact ih seen hs
        · rw [if_neg hn, List.find?_cons]
          have hf : (pluginNameStr p == some s) = false := by simp [h, hpn]
          simp only [hf]
          exact ih (seen ++ [n]) (by simp [hs, Ne.symm hpn])

/-- C2: finalization walks the accumulated plugin list in insertion order in
a single pass; the output contains one record per distinct name, the first
record with a given name is the definitive payload, later duplicates are
discarded, and accepted records keep first-occurrence order. -/
theorem dedup_keeps_first_occurrence (ps : List Plugin)
    (hn : ∀ p ∈ ps, (pluginNameStr p).isSome) :
    (dedupPlugins [] ps).Sublist ps ∧
    (pluginNames (dedupPlugins [] ps)).Nodup ∧
    (∀ s : String,
      (dedupPlugins [] ps).find? (fun q => pluginNameStr q == some s) =
        ps.find? (fun q => pluginNameStr q == some s)) ∧
    ∀ p ∈ ps, ∃ q ∈ dedupPlugins [] ps, pluginNameStr q = pluginNameStr p := by
  refine ⟨dedupPlugins_sublist [] ps, (dedupPlugins_names [] ps).1,
    fun s => dedupPlugins_find? ps [] s (List.not_mem_nil s), fun p hp => ?_⟩
  obtain ⟨n, hn0⟩ := Option.isSome_iff_exists.mp (hn p hp)
  have hfind : ps.find? (fun q => pluginNameStr q == some n) |>.isSome := by
    rw [List.find?_isSome]
    exact ⟨p, hp, by simp [hn0]⟩
  obtain ⟨q, hq⟩ := Option.isSome_iff_exists.mp hfind
  have hq' := dedupPlugins_find? ps [] n (List.not_mem_nil n)
  rw [hq] at hq'
  have hqmem : q ∈ dedupPlugins [] ps := List.mem_of_find?_eq_some hq'
  have hqname : pluginNameStr q = some n := by
    have := List.find?_some hq'
    simpa using this
  exact ⟨q, hqmem, by rw [hqname, hn0]⟩

/-- Witness for C2 at a concrete three-record list with a duplicate name. -/
theorem dedup_keeps_first_occurrence_witness :
    (∀ p ∈ c2ps, (pluginNameStr p).isSome) ∧
    ((dedupPlugins [] c2ps).Sublist c2ps ∧
    (pluginNames (dedupPlugins [] c2ps)).Nodup ∧
    (∀ s : String,
      (dedupPlugins [] c2ps).find? (fun q => pluginNameStr q == some s) =
        c2ps.find? (fun q => pluginNameStr q == some s)) ∧
    ∀ p ∈ c2ps, ∃ q ∈ dedupPlugins [] c2ps, pluginNameStr q = pluginNameStr p) :=
  ⟨by decide, dedup_keeps_first_occurrence c2ps (by decide)⟩

theorem processPlugins_processed (provField tag : String) (d : List String)
    (ps : List Plugin) (st st' : AggState)
    (h : processPlugins provField tag d ps st = .ok st') :
    st'.processedMarketplaces = st.processedMarketplaces := by
  induction ps generalizing st with
  | nil =>
    rw [processPlugins] at h
    cases h
    rfl
  | cons p rest ih =>
    rw [processPlugins] at h
    cases hn : pluginNameStr p with
    | none => rw [hn] at h; cases h
    | some n =>
      rw [hn] at h
      dsimp only at h
      by_cases hmem : n ∈ d
      · rw [if_pos hmem] at h
        exact ih _ h
      · rw [if_neg hmem] at h
        exact (ih _ h).trans rfl

theorem processMarketplace_mem_processed (cfg : Config) (world : World)
    (src : SourceSpec) (chain : List String) (st st' : AggState)
    (h : processMarketplace cfg world src chain st = .ok st') :
    mkMarketplaceId src.url (src.branch?.getD "main") ∈ st'.processedMarketplaces := by
  rw [processMarketplace] at h
  by_cases hmem : mkMarketplaceId src.url (src.branch?.getD "main") ∈ st.processedMarketplaces
  · rw [if_pos hmem] at h
    cases h
    exact hmem
  · rw [if_neg hmem] at h
    cases hw : world src.url (src.branch?.getD "main") with
    | failure => rw [hw] at h; cases h
    | noDescriptor =>
      rw [hw] at h
      cases h
      simp
    | catalog plugins =>
      rw [hw] at h
      dsimp only at h
      have := processPlugins_processed _ _ _ _ _ _ h
      rw [this]
      simp

/-- C6: a second marketplace source entry with the same (url, branch) is a
no-op skip, not an error: processing it returns the state produced by the
first entry unchanged (in particular the plugin list and provenance map). -/
theorem duplicate_marketplace_skipped (cfg : Config) (world : World)
    (src src' : SourceSpec) (chain chain' : List String) (st st' : AggState)
    (hurl : src'.url = src.url)
    (hbr : src'.branch?.getD "main" = src.branch?.getD "main")
    (h : processMarketplace cfg world src chain st = .ok st') :
    processMarketplace cfg world src' chain' st' = .ok st' := by
  have hmem : mkMarketplaceId src'.url (src'.branch?.getD "main") ∈
      st'.processedMarketplaces := by
    rw [hurl, hbr]
    exact processMarketplace_mem_processed cfg world src chain st st' h
  rw [processMarketplace, if_pos hmem]

/-- Witness for C6: the same (url, branch) listed twice, the second entry
with a different denylist and a defaulted branch, is skipped. -/
theorem duplicate_marketplace_skipped_witness :
    c6src'.url = c6src.url ∧
    c6src'.branch?.getD "main" = c6src.branch?.getD "main" ∧
    processMarketplace {} c6world c6src [] {} = .ok c6st ∧
    processMarketplace {} c6world c6src' [] c6st = .ok c6st :=
  ⟨rfl, rfl, rfl,
    duplicate_marketplace_skipped {} c6world c6src c6src' [] [] {} c6st rfl rfl rfl⟩

/-- C5: a marketplace source that fetches but lacks
`.claude-plugin/marketplace.json` contributes zero plugins and zero
provenance entries, does not raise, and the run continues with the
remaining sources from the resulting state. -/
theorem missing_descriptor_contributes_nothing (cfg : Config) (world : World)
    (versionOf : String → String → String) (src : SourceSpec) (st : AggState)
    (htype : src.type?.getD "skill" = "marketplace")
    (hnd : world src.url (src.branch?.getD "main") = .noDescriptor)
    (hnew : mkMarketplaceId src.url (src.branch?.getD "main") ∉
      st.processedMarketplaces) :
    ∃ st', processSource cfg world versionOf src [] st = .ok st' ∧
      st'.allPlugins = st.allPlugins ∧
      st'.provenanceMap = st.provenanceMap ∧
      ∀ rest, runSources cfg world versionOf (src :: rest) st =
        runSources cfg world versionOf rest st' := by
  have hps : processSource cfg world versionOf src [] st = .ok
      { st with processedMarketplaces :=
          st.processedMarketplaces ++ [mkMarketplaceId src.url (src.branch?.getD "main")] } := by
    rw [processSource, htype, if_pos rfl, processMarketplace, if_neg hnew, hnd]
  refine ⟨_, hps, rfl, rfl, fun rest => ?_⟩
  rw [runSources, hps]

/-- Witness for C5: a fetched tree without the descriptor file, followed by
no further sources. -/
theorem missing_descriptor_contributes_nothing_witness :
    (c5src.type?.getD "skill" = "marketplace") ∧
    ((fun _ _ => FetchResult.noDescriptor : World) c5src.url (c5src.branch?.getD "main") =
      .noDescriptor) ∧
    (mkMarketplaceId c5src.url (c5src.branch?.getD "main") ∉
      (({} : AggState)).processedMarketplaces) ∧
    ∃ st', processSource {} (fun _ _ => FetchResult.noDescriptor) (fun _ _ => "1.0.0")
        c5src [] {} = .ok st' ∧
      st'.allPlugins = ({} : AggState).allPlugins ∧
      st'.provenanceMap = ({} : AggState).provenanceMap ∧
      ∀ rest, runSources {} (fun _ _ => FetchResult.noDescriptor) (fun _ _ => "1.0.0")
          (c5src :: rest) {} =
        runSources {} (fun _ _ => FetchResult.noDescriptor) (fun _ _ => "1.0.0") rest st' :=
  ⟨rfl, rfl, by simp, missing_descriptor_contributes_nothing {}
    (fun _ _ => FetchResult.noDescriptor) (fun _ _ => "1.0.0") c5src {} rfl rfl (by simp)⟩

theorem processPlugins_spec (provField tag : String) (d : List String)
    (ps : List Plugin) (st : AggState)
    (hn : ∀ p ∈ ps, (pluginNameStr p).isSome) :
    processPlugins provField tag d ps st = .ok
      { st with
        allPlugins := st.allPlugins ++
          (ps.filter (keptByDenylist d)).map (fun p => dictSet p provField (.str tag)),
        provenanceMap := provAppendList st.provenanceMap
          ((ps.filterMap pluginNameStr).filter (fun n => !(decide (n ∈ d)))) tag } := by
  induction ps generalizing st with
  | nil =>
    rw [processPlugins]
    simp [provAppendList]
  | cons p rest ih =>
    obtain ⟨n, h⟩ := Option.isSome_iff_exists.mp (hn p (by simp))
    have hrest : ∀ q ∈ rest, (pluginNameStr q).isSome :=
      fun q hq => hn q (List.mem_cons_of_mem p hq)
    rw [processPlugins, h]
    dsimp only
    by_cases hmem : n ∈ d
    · rw [if_pos hmem]
      rw [ih _ hrest]
      have hkept : keptByDenylist d p = false := by
        simp [keptByDenylist, h, hmem]
      simp [List.filter_cons, hkept, List.filterMap_cons, h, hmem, provAppendList]
    · rw [if_neg hmem]
      rw [ih _ hrest]
      have hkept : keptByDenylist d p = true := by
        simp [keptByDenylist, h, hmem]
      simp [List.filter_cons, hkept, List.filterMap_cons, h, hmem, provAppendList,
        List.append_assoc]

/-- C7: for a (fresh) marketplace source, exactly the parsed entries whose
name is not denylisted are appended, each with the provenance field set, and
exactly their names receive a provenance-map entry; a denylisted entry is
skipped without error and contributes neither. -/
theorem denylist_filters_plugins (cfg : Config) (world : World) (src : SourceSpec)
    (chain : List String) (st : AggState) (plugins : List Plugin)
    (hnew : mkMarketplaceId src.url (src.branch?.getD "main") ∉ st.processedMarketplaces)
    (hcat : world src.url (src.branch?.getD "main") = .catalog plugins)
    (hn : ∀ p ∈ plugins, (pluginNameStr p).isSome) :
    processMarketplace cfg world src chain st = .ok
      { processedMarketplaces := st.processedMarketplaces ++
          [mkMarketplaceId src.url (src.branch?.getD "main")],
        allPlugins := st.allPlugins ++
          (plugins.filter (keptByDenylist src.denylist)).map
            (fun p => dictSet p cfg.provenanceField
              (.str (joinChain (chain ++ [src.tagPref?.getD (extractRepoName src.url)])))),
        provenanceMap := provAppendList st.provenanceMap
          ((plugins.filterMap pluginNameStr).filter
            (fun n => !(decide (n ∈ src.denylist))))
          (joinChain (chain ++ [src.tagPref?.getD (extractRepoName src.url)])) } := by
  rw [processMarketplace, if_neg hnew, hcat]
  exact processPlugins_spec _ _ _ _ _ hn

/-- Witness for C7: plugins {a, b, c} under denylist {b} yield exactly
{a, c}. -/
theorem denylist_filters_plugins_witness :
    (mkMarketplaceId c7src.url (c7src.branch?.getD "main") ∉
      ({} : AggState).processedMarketplaces) ∧
    (c7world c7src.url (c7src.branch?.getD "main") = .catalog c7plugins) ∧
    (∀ p ∈ c7plugins, (pluginNameStr p).isSome) ∧
    processMarketplace {} c7world c7src [] {} = .ok
      { processedMarketplaces := ({} : AggState).processedMarketplaces ++
          [mkMarketplaceId c7src.url (c7src.branch?.getD "main")],
        allPlugins := ({} : AggState).allPlugins ++
          (c7plugins.filter (keptByDenylist c7src.denylist)).map
            (fun p => dictSet p ({} : Config).provenanceField
              (.str (joinChain ([] ++ [c7src.tagPref?.getD (extractRepoName c7src.url)])))),
        provenanceMap := provAppendList ({} : AggState).provenanceMap
          ((c7plugins.filterMap pluginNameStr).filter
            (fun n => !(decide (n ∈ c7src.denylist))))
          (joinChain ([] ++ [c7src.tagPref?.getD (extractRepoName c7src.url)])) } :=
  ⟨by simp, rfl, by decide,
    denylist_filters_plugins {} c7world c7src [] {} c7plugins (by simp) rfl (by decide)⟩

theorem runSources_append (cfg : Config) (world : World)
    (versionOf : String → String → String) (l1 l2 : List SourceSpec) (st : AggState) :
    runSources cfg world versionOf (l1 ++ l2) st =
      match runSources cfg world versionOf l1 st with
      | .error e => .error e
      | .ok st' => runSources cfg world versionOf l2 st' := by
  induction l1 generalizing st with
  | nil =>
    rw [List.nil_append, runSources]
  | cons s rest ih =>
    rw [List.cons_append, runSources, runSources]
    cases processSource cfg world versionOf s [] st with
    | error e => rfl
    | ok st' => exact ih st'

theorem processMarketplace_clone_failure (cfg : Config) (world : World)
    (src : SourceSpec) (chain : List String) (st : AggState)
    (hfail : world src.url (src.branch?.getD "main") = .failure)
    (hnew : mkMarketplaceId src.url (src.branch?.getD "main") ∉ st.processedMarketplaces) :
    processMarketplace cfg world src chain st =
      .error ("Failed to clone " ++ src.url) := by
  rw [processMarketplace, if_neg hnew, hfail]

/-- C4 (amended): a marketplace source whose repository fetch fails makes
the raised error propagate out of source processing: the whole run aborts
with exit status 1, no catalog is produced, and the sources after the
failing one are never processed. -/
theorem clone_failure_aborts_run (cfg : Config) (world : World)
    (versionOf : String → String → String) (pre post : List SourceSpec)
    (src : SourceSpec) (st : AggState)
    (hsrcs : cfg.sources = pre ++ src :: post)
    (hpre : runSources cfg world versionOf pre {} = .ok st)
    (htype : src.type?.getD "skill" = "marketplace")
    (hfail : world src.url (src.branch?.getD "main") = .failure)
    (hnew : mkMarketplaceId src.url (src.branch?.getD "main") ∉ st.processedMarketplaces) :
    runAggregator cfg world versionOf = (1, none) := by
  have hsrc : processSource cfg world versionOf src [] st =
      .error ("Failed to clone " ++ src.url) := by
    rw [processSource, htype, if_pos rfl]
    exact processMarketplace_clone_failure cfg world src [] st hfail hnew
  rw [runAggregator, hsrcs, runSources_append, hpre]
  dsimp only
  rw [runSources, hsrc]

/-- Counterexample to C4 as stated: with a failing first marketplace source
and a healthy second one, the run does not continue and the exit status is
1, not 0. -/
theorem clone_failure_aborts_run_counterexample :
    runAggregator c4cfg c4world (fun _ _ => "1.0.0") = (1, none) ∧
    (runAggregator c4cfg c4world (fun _ _ => "1.0.0")).1 ≠ 0 :=
  ⟨rfl, by decide⟩

/-- Witness for the amended C4 at the concrete failing configuration. -/
theorem clone_failure_aborts_run_witness :
    (c4cfg.sources = [] ++ c4bad :: [c4good]) ∧
    (runSources c4cfg c4world (fun _ _ => "1.0.0") [] {} = .ok {}) ∧
    (c4bad.type?.getD "skill" = "marketplace") ∧
    (c4world c4bad.url (c4bad.branch?.getD "main") = .failure) ∧
    (mkMarketplaceId c4bad.url (c4bad.branch?.getD "main") ∉
      ({} : AggState).processedMarketplaces) ∧
    runAggregator c4cfg c4world (fun _ _ => "1.0.0") = (1, none) :=
  ⟨rfl, rfl, rfl, rfl, by simp,
    clone_failure_aborts_run c4cfg c4world (fun _ _ => "1.0.0") [] [c4good] c4bad {}
      rfl rfl rfl rfl (by simp)⟩

theorem processSkill_ok (cfg : Config) (world : World)
    (versionOf : String → String → String) (src : SourceSpec)
    (chain : List String) (st : AggState) (name : String)
    (hname : src.name? = some name)
    (hfetch : world src.url (src.branch?.getD "main") ≠ .failure) :
    processSkill cfg world versionOf src chain st = .ok
      { st with allPlugins := st.allPlugins ++
          [mkSkillEntry cfg (versionOf src.url (src.branch?.getD "main")) src chain name] } := by
  rw [processSkill, hname]
  dsimp only
  cases hw : world src.url (src.branch?.getD "main") with
  | failure => exact absurd hw hfetch
  | noDescriptor => rfl
  | catalog plugins => rfl

theorem mkSkillEntry_fields (cfg : Config) (version : String) (src : SourceSpec)
    (chain : List String) (name : String)
    (hpf : cfg.provenanceField ∉ ["name", "description", "version", "source", "category"]) :
    dictGet (mkSkillEntry cfg version src chain name) "name" = some (.str name) ∧
    dictGet (mkSkillEntry cfg version src chain name) "description" =
      some (.str (src.description?.getD ("Skill: " ++ name))) ∧
    dictGet (mkSkillEntry cfg version src chain name) "version" = some (.str version) ∧
    dictGet (mkSkillEntry cfg version src chain name) "source" =
      some (.str ("./" ++ src.targetPath?.getD ("skills/" ++ name))) ∧
    dictGet (mkSkillEntry cfg version src chain name) "category" =
      some (.str (src.category?.getD "skills")) ∧
    dictGet (mkSkillEntry cfg version src chain name) cfg.provenanceField =
      some (.str (if chain.isEmpty then "direct" else joinChain chain)) := by
  simp only [List.mem_cons, List.mem_singleton, not_or] at hpf
  obtain ⟨h1, h2, h3, h4, h5, -⟩ := hpf
  have e1 : (cfg.provenanceField == "name") = false := by simp [h1]
  have e2 : (cfg.provenanceField == "description") = false := by simp [h2]
  have e3 : (cfg.provenanceField == "version") = false := by simp [h3]
  have e4 : (cfg.provenanceField == "source") = false := by simp [h4]
  have e5 : (cfg.provenanceField == "category") = false := by simp [h5]
  have f1 : ("name" == cfg.provenanceField) = false := by simp [Ne.symm h1]
  have f2 : ("description" == cfg.provenanceField) = false := by simp [Ne.symm h2]
  have f3 : ("version" == cfg.provenanceField) = false := by simp [Ne.symm h3]
  have f4 : ("source" == cfg.provenanceField) = false := by simp [Ne.symm h4]
  have f5 : ("category" == cfg.provenanceField) = false := by simp [Ne.symm h5]
  refine ⟨?_, ?_, ?_, ?_, ?_, ?_⟩ <;>
    simp [mkSkillEntry, dictSet, dictGet, List.find?, List.any, f1, f2, f3, f4, f5]

/-- C9 (amended): a skill source synthesizes exactly one plugin record with
the documented fields and appends it to the plugin list; the provenance map
(and the processed-marketplaces set) is left unchanged — no provenance-map
entry is recorded for a skill. -/
theorem skill_synthesizes_one_record (cfg : Config) (world : World)
    (versionOf : String → String → String) (src : SourceSpec)
    (chain : List String) (st : AggState) (name : String)
    (hname : src.name? = some name)
    (hfetch : world src.url (src.branch?.getD "main") ≠ .failure)
    (hpf : cfg.provenanceField ∉ ["name", "description", "version", "source", "category"]) :
    ∃ st' entry, processSkill cfg world versionOf src chain st = .ok st' ∧
      st'.allPlugins = st.allPlugins ++ [entry] ∧
      st'.provenanceMap = st.provenanceMap ∧
      st'.processedMarketplaces = st.processedMarketplaces ∧
      dictGet entry "name" = some (.str name) ∧
      dictGet entry "description" =
        some (.str (src.description?.getD ("Skill: " ++ name))) ∧
      dictGet entry "version" =
        some (.str (versionOf src.url (src.branch?.getD "main"))) ∧
      dictGet entry "source" =
        some (.str ("./" ++ src.targetPath?.getD ("skills/" ++ name))) ∧
      dictGet entry "category" = some (.str (src.category?.getD "skills")) ∧
      dictGet entry cfg.provenanceField =
        some (.str (if chain.isEmpty then "direct" else joinChain chain)) := by
  obtain ⟨g1, g2, g3, g4, g5, g6⟩ :=
    mkSkillEntry_fields cfg (versionOf src.url (src.branch?.getD "main")) src chain name hpf
  exact ⟨_, _, processSkill_ok cfg world versionOf src chain st name hname hfetch,
    rfl, rfl, rfl, g1, g2, g3, g4, g5, g6⟩

/-- Counterexample to C9 as stated: processing a skill source appends the
synthesized record but records nothing in the provenance map (here the map
stays empty, with no entry under the skill's name). -/
theorem skill_provenance_not_recorded :
    processSkill {} (fun _ _ => .noDescriptor) (fun _ _ => "2.0.0") c9src [] {} =
      .ok { processedMarketplaces := [],
            allPlugins := [[("name", JVal.str "myskill"),
              ("description", JVal.str "Skill: myskill"),
              ("version", JVal.str "2.0.0"),
              ("source", JVal.str "./skills/myskill"),
              ("category", JVal.str "skills"),
              ("source_marketplace", JVal.str "direct")]],
            provenanceMap := [] } ∧
    (([] : List (String × List String)).lookup "myskill" = none) :=
  ⟨rfl, rfl⟩

/-- Witness for the amended C9 at the concrete skill source. -/
theorem skill_synthesizes_one_record_witness :
    (c9src.name? = some "myskill") ∧
    ((fun _ _ => FetchResult.noDescriptor : World) c9src.url (c9src.branch?.getD "main") ≠
      .failure) ∧
    (({} : Config).provenanceField ∉
      ["name", "description", "version", "source", "category"]) ∧
    ∃ st' entry, processSkill {} (fun _ _ => FetchResult.noDescriptor) (fun _ _ => "2.0.0")
        c9src [] {} = .ok st' ∧
      st'.allPlugins = ({} : AggState).allPlugins ++ [entry] ∧
      st'.provenanceMap = ({} : AggState).provenanceMap ∧
      st'.processedMarketplaces = ({} : AggState).processedMarketplaces ∧
      dictGet entry "name" = some (.str "myskill") ∧
      dictGet entry "description" =
        some (.str (c9src.description?.getD ("Skill: " ++ "myskill"))) ∧
      dictGet entry "version" =
        some (.str ((fun _ _ => "2.0.0" : String → String → String) c9src.url
          (c9src.branch?.getD "main"))) ∧
      dictGet entry "source" =
        some (.str ("./" ++ c9src.targetPath?.getD ("skills/" ++ "myskill"))) ∧
      dictGet entry "category" = some (.str (c9src.category?.getD "skills")) ∧
      dictGet entry ({} : Config).provenanceField =
        some (.str (if ([] : List String).isEmpty then "direct" else joinChain [])) :=
  ⟨rfl, by simp, by decide,
    skill_synthesizes_one_record {} (fun _ _ => FetchResult.noDescriptor)
      (fun _ _ => "2.0.0") c9src [] {} "myskill" rfl (by simp) (by decide)⟩

/-- C10: a source spec without a `type` key defaults to the skill variant
and is processed by it, contributing one synthesized plugin record instead
of being rejected as an unknown source type. -/
theorem typeless_source_treated_as_skill (cfg : Config) (world : World)
    (versionOf : String → String → String) (src : SourceSpec)
    (chain : List String) (st : AggState) (name : String)
    (htype : src.type? = none)
    (hname : src.name? = some name)
    (hfetch : world src.url (src.branch?.getD "main") ≠ .failure) :
    processSource cfg world versionOf src chain st =
      processSkill cfg world versionOf src chain st ∧
    ∃ entry, processSource cfg world versionOf src chain st =
      .ok { st with allPlugins := st.allPlugins ++ [entry] } := by
  have hdisp : processSource cfg world versionOf src chain st =
      processSkill cfg world versionOf src chain st := by
    rw [processSource, htype]
    rfl
  refine ⟨hdisp, ?_⟩
  refine ⟨mkSkillEntry cfg (versionOf src.url (src.branch?.getD "main")) src chain name, ?_⟩
  rw [hdisp]
  exact processSkill_ok cfg world versionOf src chain st name hname hfetch

/-- Witness for C10: a typeless source with only `name` and `url`. -/
theorem typeless_source_treated_as_skill_witness :
    (c10src.type? = none) ∧
    (c10src.name? = some "tool") ∧
    ((fun _ _ => FetchResult.noDescriptor : World) c10src.url (c10src.branch?.getD "main") ≠
      .failure) ∧
    (processSource {} (fun _ _ => FetchResult.noDescriptor) (fun _ _ => "1.0.0")
        c10src [] {} =
      processSkill {} (fun _ _ => FetchResult.noDescriptor) (fun _ _ => "1.0.0")
        c10src [] {} ∧
    ∃ entry, processSource {} (fun _ _ => FetchResult.noDescriptor) (fun _ _ => "1.0.0")
        c10src [] {} =
      .ok { ({} : AggState) with allPlugins := ({} : AggState).allPlugins ++ [entry] }) :=
  ⟨rfl, rfl, by simp,
    typeless_source_treated_as_skill {} (fun _ _ => FetchResult.noDescriptor)
      (fun _ _ => "1.0.0") c10src [] {} "tool" rfl rfl (by simp)⟩

/-- C1 (code bug): with `plugin-a` seen from tags `source-1` then
`source-2`, the provenance map does hold both distinct tags, yet the
written catalog record's provenance field carries the bare first tag
`"source-1"`, not the sorted list of distinct tags — the finalize step never
collapses or emits the provenance map. -/
theorem provenance_never_collapsed_at_write :
    runSources c1cfg c1world (fun _ _ => "1.0.0") c1cfg.sources {} = .ok c1state ∧
    c1state.provenanceMap = [("plugin-a", ["source-1", "source-2"])] ∧
    (generateMarketplace c1cfg c1state).plugins =
      [[("name", .str "plugin-a"), ("version", .str "1.0.0"),
        ("source_marketplace", .str "source-1")]] ∧
    dictGet [("name", .str "plugin-a"), ("version", .str "1.0.0"),
        ("source_marketplace", .str "source-1")] "source_marketplace" =
      some (.str "source-1") ∧
    JVal.str "source-1" ≠ JVal.arr [.str "source-1", .str "source-2"] :=
  ⟨rfl, rfl, rfl, rfl, by simp⟩

/-- C3 (code bug): a marketplace plugin entry with
`source: "./plugins/test-plugin"` fetched from
`https://github.com/owner/upstream-marketplace` reaches the final catalog
with its `source` value copied verbatim: it still begins with `"./"` and is
never rewritten into a remote reference. -/
theorem relative_source_left_unrewritten :
    runAggregator c3cfg c3world (fun _ _ => "1.0.0") =
      (0, some (generateMarketplace c3cfg
        { processedMarketplaces := ["https://github.com/owner/upstream-marketplace@main"],
          allPlugins := [c3record],
          provenanceMap := [("test-plugin", ["upstream-marketplace"])] })) ∧
    (generateMarketplace c3cfg
        { processedMarketplaces := ["https://github.com/owner/upstream-marketplace@main"],
          allPlugins := [c3record],
          provenanceMap := [("test-plugin", ["upstream-marketplace"])] }).plugins =
      [c3record] ∧
    dictGet c3record "source" = some (.str "./plugins/test-plugin") ∧
    listStartsWith "./plugins/test-plugin".data "./".data = true :=
  ⟨rfl, rfl, rfl, rfl⟩

/-- Counterexample to C8 as stated: for the tag-prefix-free source url
`https://github.com/owner/plugin.gittools` the trailing path segment's
`".git"` substring is not a suffix, yet the provenance tag actually used is
`"plugintools"` — the substring is removed, not left intact. -/
theorem nonsuffix_git_not_left_intact :
    (processMarketplace {} c8world c8src [] {}).map AggState.provenanceMap =
      .ok [("p", ["plugintools"])] ∧
    extractRepoName "https://github.com/owner/plugin.gittools" = "plugintools" ∧
    "plugintools" ≠ "plugin.gittools" :=
  ⟨rfl, rfl, by decide⟩

theorem dropWhile_ne_slash_shape (l1 l2 : List Char) :
    ∃ l0, (l1 ++ '/' :: l2).dropWhile (fun c => c != '/') = l0 ++ '/' :: l2 := by
  induction l1 with
  | nil =>
    refine ⟨[], ?_⟩
    rw [List.nil_append, List.dropWhile_cons]
    simp
  | cons c cs ih =>
    rw [List.cons_append, List.dropWhile_cons]
    by_cases hc : c = '/'
    · subst hc
      refine ⟨'/' :: cs, ?_⟩
      simp
    · obtain ⟨l0, h⟩ := ih
      refine ⟨l0, ?_⟩
      simp only [bne_iff_ne, ne_eq, hc, not_false_eq_true, if_true, h]

theorem rstripSlash_no_trailing_slash (l1 l2 : List Char) (h2 : l2 ≠ [])
    (hs : ('/' : Char) ∉ l2) :
    rstripSlash (l1 ++ '/' :: l2) = l1 ++ '/' :: l2 := by
  obtain ⟨c, cs, hrev⟩ : ∃ c cs, l2.reverse = c :: cs := by
    cases hr : l2.reverse with
    | nil => exact absurd (List.reverse_eq_nil_iff.mp hr) h2
    | cons c cs => exact ⟨c, cs, rfl⟩
  have hc : (c == '/') = false := by
    have hmem : c ∈ l2 := by
      rw [← List.mem_reverse, hrev]
      exact List.mem_cons_self c cs
    simp only [beq_eq_false_iff_ne, ne_eq]
    intro hEq
    rw [hEq] at hmem
    exact hs hmem
  rw [rstripSlash, List.reverse_append, List.reverse_cons, List.append_assoc, hrev]
  rw [List.cons_append, List.dropWhile_cons, hc]
  simp only [Bool.false_eq_true, if_false]
  have hl2 : l2 = (c :: cs).reverse := by rw [← hrev, List.reverse_reverse]
  rw [hl2]
  simp

theorem foldl_collect_no_slash (l : List Char) (hs : ('/' : Char) ∉ l) :
    ∀ acc, l.foldl (fun acc c => if c == '/' then [] else acc ++ [c]) acc = acc ++ l := by
  induction l with
  | nil => intro acc; simp
  | cons c cs ih =>
    intro acc
    have hc : (c == '/') = false := by
      simp only [beq_eq_false_iff_ne, ne_eq]
      intro hEq
      rw [hEq] at hs
      exact hs (List.mem_cons_self _ _)
    rw [List.foldl_cons, hc]
    simp only [Bool.false_eq_true, if_false]
    rw [ih (fun h => hs (List.mem_cons_of_mem _ h)) (acc ++ [c])]
    simp

theorem afterLastSlash_append (l1 l2 : List Char) (hs : ('/' : Char) ∉ l2) :
    afterLastSlash (l1 ++ '/' :: l2) = l2 := by
  rw [afterLastSlash, List.foldl_append, List.foldl_cons]
  simp only [beq_self_eq_true, if_true]
  exact foldl_collect_no_slash l2 hs []

/-- C8 (amended): for any http(s) source URL whose trailing path segment is
`seg`, `_extract_repo_name` yields `seg` with every occurrence of `".git"`
removed (left to right, non-overlapping) — a trailing `".git"` is stripped,
and a non-suffix `".git"` substring is removed as well, not left intact;
with `tag_prefix` absent this is the provenance tag used. -/
theorem repo_name_removes_every_git (pre seg : String)
    (hs : ('/' : Char) ∉ seg.data) (hne : seg ≠ "") :
    extractRepoName ("https://" ++ pre ++ "/" ++ seg) = ⟨replaceDotGit seg.data⟩ ∧
    ∀ src : SourceSpec, src.tagPref? = none →
      src.url = "https://" ++ pre ++ "/" ++ seg →
      src.tagPref?.getD (extractRepoName src.url) = ⟨replaceDotGit seg.data⟩ := by
  have hdata : ("https://" ++ pre ++ "/" ++ seg).data =
      "https://".data ++ (pre.data ++ '/' :: seg.data) := by
    rw [String.data_append, String.data_append, String.data_append]
    simp [List.append_assoc]
  have hmain : extractRepoName ("https://" ++ pre ++ "/" ++ seg) =
      ⟨replaceDotGit seg.data⟩ := by
    rw [extractRepoName, hdata]
    have hstart : listStartsWith ("https://".data ++ (pre.data ++ '/' :: seg.data))
        "http".data = true := rfl
    rw [hstart, if_pos rfl]
    have hsep : afterSchemeSep ("https://".data ++ (pre.data ++ '/' :: seg.data)) =
        some (pre.data ++ '/' :: seg.data) := rfl
    rw [hsep]
    dsimp only
    have hne2 : seg.data ≠ [] := fun h => hne (String.ext h)
    obtain ⟨l0, hdrop⟩ := dropWhile_ne_slash_shape pre.data seg.data
    rw [hdrop, rstripSlash_no_trailing_slash l0 seg.data hne2 hs,
      afterLastSlash_append l0 seg.data hs]
  refine ⟨hmain, fun src hpref hurl => ?_⟩
  rw [hpref, Option.getD_none, hurl, hmain]

/-- Witness for the amended C8 at `https://github.com/owner/repo.git`
(where the removal coincides with suffix stripping). -/
theorem repo_name_removes_every_git_witness :
    (('/' : Char) ∉ "repo.git".data) ∧ ("repo.git" ≠ "") ∧
    (extractRepoName ("https://" ++ "github.com/owner" ++ "/" ++ "repo.git") =
        ⟨replaceDotGit "repo.git".data⟩ ∧
      ∀ src : SourceSpec, src.tagPref? = none →
        src.url = "https://" ++ "github.com/owner" ++ "/" ++ "repo.git" →
        src.tagPref?.getD (extractRepoName src.url) = ⟨replaceDotGit "repo.git".data⟩) :=
  ⟨by decide, by decide,
    repo_name_removes_every_git "github.com/owner" "repo.git" (by decide) (by decide)⟩
